import Mathlib

/-
Verification of the UTFSet data structure (src/utfset.c).

The C program stores Unicode code points ("runes") in a 64-ary tree that
mirrors the UTF-8 encoding: the root has 64 children indexed by the low 6
bits of a leading byte (or by the top bit of an ASCII byte), and each
continuation byte's low 6 bits index one level further down.  A node is
either a pointer to a block of 64 children or, at leaf level, a 64-bit
bitmask.

This file embeds the program shallowly:

* `Child` models `union child`: `Child.null` is all-zero memory (a NULL
  pointer read as a pointer, a zero bitmask read as a bitmask),
  `Child.mask b` is a bitmask with value `b`, and `Child.node blk` is a
  pointer to an allocated block of 64 children.  The C union's
  interpretation is picked by the depth argument threaded through the
  code, exactly as in the source; because the depth of every path below
  root index `c` is fixed at `clo6[c]`, a bitmask is never read where a
  pointer is expected (and vice versa) in any state the operations build.
* Strings are `List Nat` read through `byteAt`, which applies the C
  `unsigned char` conversion (`% 256`); a cursor is an index.  Reads past
  the end of the list yield byte 0, matching the NUL terminator region
  that the C code relies on for well-formed inputs.
* `calloc` is modelled by an explicit allocation budget (`fuel`): each
  allocation consumes one unit and fails when the budget is exhausted.
  `addutf` returns the (possibly partially mutated) set, `some cursor` on
  success or `none` on failure (the C function returns `NULL` for both
  failure causes), and the remaining budget.
* `foreach`/`foreach1` return the list of arguments passed to the visit
  callback, in call order.  `foreachF`/`foreach1F` are the same traversal
  with an explicit callback folded over an accumulator, used to relate
  the callback interface to the pure visit list.
-/

/-- Table `clo6` from the source: number of leading ones in a 6-bit value. -/
def clo6 : List Nat :=
  [0, 0, 0, 0, 0, 0, 0, 0, 0, 0, 0, 0, 0, 0, 0, 0,
   0, 0, 0, 0, 0, 0, 0, 0, 0, 0, 0, 0, 0, 0, 0, 0,
   1, 1, 1, 1, 1, 1, 1, 1, 1, 1, 1, 1, 1, 1, 1, 1,
   2, 2, 2, 2, 2, 2, 2, 2, 3, 3, 3, 3, 4, 4, 5, 6]

/-- Lookup in the `clo6` table, `clo6[c]` in the source. -/
def clo6At (c : Nat) : Nat := clo6.getD c 0

/-- Read byte `i` of the input, with the C `unsigned char` conversion. -/
def byteAt (s : List Nat) (i : Nat) : Nat := s.getD i 0 % 256

/-- Model of `union child`: all-zero memory (`null`), a bitmask (`mask`),
or a pointer to an allocated block of 64 children (`node`). -/
inductive Child : Type where
  | null : Child
  | mask : Nat → Child
  | node : (Fin 64 → Child) → Child

/-- Read the union member `t.bits`.  Zeroed memory reads as 0.  A `node`
is never read as a bitmask by the operations (depths are consistent). -/
def Child.getBits : Child → Nat
  | .null => 0
  | .mask b => b
  | .node _ => 0

/-- Read the union member `t.ptr`.  Zeroed memory reads as NULL (`none`).
A `mask` is never read as a pointer by the operations. -/
def Child.getBlk : Child → Option (Fin 64 → Child)
  | .node blk => some blk
  | _ => none

/-- Model of `UTFSet`: the root block of 64 children. -/
def UTFSet : Type := Fin 64 → Child

/-- Empty set, `UTFSet set = { 0 }` in the example consumer. -/
def emptySet : UTFSet := fun _ => Child.null

/-- Lines 136-140 of the source: if the slot holds no block yet, allocate
a zero-initialized one (`calloc`), consuming one unit of the allocation
budget; fail (`none`) when the budget is exhausted. -/
def ensure (t : Child) (fuel : Nat) : Option ((Fin 64 → Child) × Nat) :=
  match t.getBlk with
  | some blk => some (blk, fuel)
  | none =>
    match fuel with
    | 0 => none
    | f + 1 => some (fun _ => Child.null, f)

/-- Lines 134-153 of the source: descend `n` levels reading one byte per
level, then set the final byte's bit in the leaf bitmask.  Returns the
updated child, `some` advanced cursor on success or `none` on allocation
failure (partial allocations stay attached, as in the C code), and the
remaining allocation budget. -/
def addLoop (s : List Nat) : Child → Nat → Nat → Nat → Child × Option Nat × Nat
  | t, i, 0, fuel =>
      (Child.mask (t.getBits ||| 2 ^ (byteAt s i % 64)), some (i + 1), fuel)
  | t, i, n + 1, fuel =>
      match ensure t fuel with
      | none => (t, none, fuel)
      | some (blk, fuel1) =>
          let c : Fin 64 := ⟨byteAt s i % 64, by omega⟩
          let r := addLoop s (blk c) (i + 1) n fuel1
          (Child.node (Function.update blk c r.1), r.2.1, r.2.2)

/-- Model of `addutf` (lines 76-154): classify the first byte, pick the
root child, descend, set the leaf bit.  Returns the resulting set, `some`
of the advanced cursor on success or `none` on failure (the C function
returns `NULL` for both malformed input and out of memory), and the
remaining allocation budget. -/
def addutf (set : UTFSet) (s : List Nat) (i fuel : Nat) : UTFSet × Option Nat × Nat :=
  if 0xC0 ≤ byteAt s i then
    let c : Fin 64 := ⟨byteAt s i % 64, by omega⟩
    let r := addLoop s (set c) (i + 1) (clo6At (byteAt s i % 64)) fuel
    (Function.update set c r.1, r.2.1, r.2.2)
  else if byteAt s i < 0x80 then
    let c : Fin 64 := ⟨byteAt s i / 64, by
      have h : byteAt s i < 256 := Nat.mod_lt _ (by decide)
      omega⟩
    let r := addLoop s (set c) i 0 fuel
    (Function.update set c r.1, r.2.1, r.2.2)
  else
    (set, none, fuel)

/-- Model of `foreach1` (lines 191-218): the list of runes passed to the
callback by the subtree `t` at depth `n` with rune prefix `r`, in call
order. -/
def foreach1 (t : Child) (n : Nat) (r : Nat) : List Nat :=
  match n with
  | nn + 1 =>
      match t.getBlk with
      | some blk =>
          (List.finRange 64).flatMap (fun c => foreach1 (blk c) nn (r * 64 + c.val))
      | none => []
  | 0 =>
      (List.finRange 64).filterMap (fun c =>
        if t.getBits.testBit c.val then some (r * 64 + c.val) else none)

/-- Model of `foreach` (lines 167-182): the list of runes passed to the
callback, in call order. -/
def foreach (set : UTFSet) : List Nat :=
  (List.finRange 64).flatMap (fun c =>
    foreach1 (set c) (clo6At c.val) (c.val % (64 >>> clo6At c.val)))

/-- Model of `foreach1` with an explicit callback folded over an
accumulator of arbitrary type, mirroring the function-pointer interface
of the source. -/
def foreach1F {σ : Type} (t : Child) (n : Nat) (r : Nat) (fcn : Nat → σ → σ) (acc : σ) : σ :=
  match n with
  | nn + 1 =>
      match t.getBlk with
      | some blk =>
          (List.finRange 64).foldl (fun a c => foreach1F (blk c) nn (r * 64 + c.val) fcn a) acc
      | none => acc
  | 0 =>
      (List.finRange 64).foldl
        (fun a c => if t.getBits.testBit c.val then fcn (r * 64 + c.val) a else a) acc

/-- Model of `foreach` with an explicit callback folded over an
accumulator of arbitrary type. -/
def foreachF {σ : Type} (set : UTFSet) (fcn : Nat → σ → σ) (acc : σ) : σ :=
  (List.finRange 64).foldl
    (fun a c => foreach1F (set c) (clo6At c.val) (c.val % (64 >>> clo6At c.val)) fcn a) acc

/-- Driver that calls `addutf` `k` times in sequence from cursor `i`,
stopping at the first failure, as the example consumer `prunes` does. -/
def insertString (s : List Nat) : UTFSet → Nat → Nat → Nat → UTFSet × Option Nat × Nat
  | set, i, fuel, 0 => (set, some i, fuel)
  | set, i, fuel, k + 1 =>
      match addutf set s i fuel with
      | (set1, some i1, fuel1) => insertString s set1 i1 fuel1 k
      | (set1, none, fuel1) => (set1, none, fuel1)

/-- Error kinds of the spec's Insert interface. -/
inductive InsertErr : Type where
  | malformed : InsertErr
  | oom : InsertErr
deriving DecidableEq

/-- Modelled from the spec: the spec's Insert interface
(`byte-cursor | MalformedInputError | OutOfMemoryError`) names two
distinct error results, which the C return value (`NULL` for both) does
not carry.  This is `addLoop` instrumented to report which error kind
occurred; it is used only to compare the spec's interface with the code. -/
def addLoopE (s : List Nat) : Child → Nat → Nat → Nat → Child × Except InsertErr Nat × Nat
  | t, i, 0, fuel =>
      (Child.mask (t.getBits ||| 2 ^ (byteAt s i % 64)), Except.ok (i + 1), fuel)
  | t, i, n + 1, fuel =>
      match ensure t fuel with
      | none => (t, Except.error InsertErr.oom, fuel)
      | some (blk, fuel1) =>
          let c : Fin 64 := ⟨byteAt s i % 64, by omega⟩
          let r := addLoopE s (blk c) (i + 1) n fuel1
          (Child.node (Function.update blk c r.1), r.2.1, r.2.2)

/-- Modelled from the spec: `addutf` instrumented with the spec's two
distinct error results; used only to compare the spec's error interface
with the code's single `NULL` result. -/
def addutfE (set : UTFSet) (s : List Nat) (i fuel : Nat) : UTFSet × Except InsertErr Nat × Nat :=
  if 0xC0 ≤ byteAt s i then
    let c : Fin 64 := ⟨byteAt s i % 64, by omega⟩
    let r := addLoopE s (set c) (i + 1) (clo6At (byteAt s i % 64)) fuel
    (Function.update set c r.1, r.2.1, r.2.2)
  else if byteAt s i < 0x80 then
    let c : Fin 64 := ⟨byteAt s i / 64, by
      have h : byteAt s i < 256 := Nat.mod_lt _ (by decide)
      omega⟩
    let r := addLoopE s (set c) i 0 fuel
    (Function.update set c r.1, r.2.1, r.2.2)
  else
    (set, Except.error InsertErr.malformed, fuel)

/-- Number of bytes in the canonical (shortest) UTF-8 encoding of `r`. -/
def utf8Len (r : Nat) : Nat :=
  if r < 0x80 then 1 else if r < 0x800 then 2 else if r < 0x10000 then 3 else 4

/-- Canonical (shortest) UTF-8 encoding of a rune, as a byte list. -/
def encodeUtf8 (r : Nat) : List Nat :=
  if r < 0x80 then [r]
  else if r < 0x800 then [0xC0 + r / 64, 0x80 + r % 64]
  else if r < 0x10000 then [0xE0 + r / 4096, 0x80 + r / 64 % 64, 0x80 + r % 64]
  else [0xF0 + r / 262144, 0x80 + r / 4096 % 64, 0x80 + r / 64 % 64, 0x80 + r % 64]

/-- Concatenated UTF-8 encoding of a list of runes. -/
def encodeAll (rs : List Nat) : List Nat := rs.flatMap encodeUtf8

/-- Valid Unicode scalar value: in range and not a surrogate. -/
def ValidRune (r : Nat) : Prop := r < 0x110000 ∧ (r < 0xD800 ∨ 0xE000 ≤ r)

/-- Root index used for rune `r` by its canonical encoding. -/
def slotOf (r : Nat) : Nat :=
  if r < 0x800 then r / 64 else if r < 0x10000 then 32 + r / 4096 else 48 + r / 262144

/-- Value of the `n+1` base-64 digits read by the descent loop starting
at byte `i` (most significant first). -/
def sVal (s : List Nat) : Nat → Nat → Nat
  | i, 0 => byteAt s i % 64
  | i, n + 1 => (byteAt s i % 64) * 64 ^ (n + 1) + sVal s (i + 1) n

/-- Count of leading one bits in a `w`-bit value. -/
def leadOnes : Nat → Nat → Nat
  | 0, _ => 0
  | w + 1, c => if c.testBit w then 1 + leadOnes w c else 0

/-- Statement that the bytes of `s` starting at `i` spell the canonical
UTF-8 encoding of `r`. -/
def EncAt (s : List Nat) (i r : Nat) : Prop :=
  ∀ j, j < utf8Len r → s.getD (i + j) 0 = (encodeUtf8 r).getD j 0

/-- Statement that the bytes of `s` starting at `i` spell the
concatenated canonical encodings of the runes `rs`, in order. -/
def EncAtAll (s : List Nat) : Nat → List Nat → Prop
  | _, [] => True
  | i, r :: rs => EncAt s i r ∧ EncAtAll s (i + utf8Len r) rs

instance (r : Nat) : Decidable (ValidRune r) := by
  unfold ValidRune
  infer_instance

instance (s : List Nat) (i r : Nat) : Decidable (EncAt s i r) := by
  unfold EncAt
  infer_instance

/-- Decision procedure for `EncAtAll`, by recursion on the rune list. -/
def decEncAtAll (s : List Nat) : (i : Nat) → (rs : List Nat) → Decidable (EncAtAll s i rs)
  | _, [] => Decidable.isTrue trivial
  | i, r :: rs => @instDecidableAnd _ _ _ (decEncAtAll s (i + utf8Len r) rs)

instance (s : List Nat) (i : Nat) (rs : List Nat) : Decidable (EncAtAll s i rs) :=
  decEncAtAll s i rs

/-- Subtrees reached through zeroed memory contribute no visits. -/
theorem foreach1_null (n r : Nat) : foreach1 Child.null n r = [] := by
  cases n with
  | zero => simp [foreach1, Child.getBits, Nat.zero_testBit]
  | succ nn => simp [foreach1, Child.getBlk]

/-- A child with no allocated block contributes no visits at positive depth. -/
theorem foreach1_noBlk {t : Child} (h : t.getBlk = none) (n r : Nat) :
    foreach1 t (n + 1) r = [] := by
  rw [foreach1, h]

/-- Unfolding of `foreach1` at an allocated inner node. -/
theorem foreach1_node (blk : Fin 64 → Child) (n r : Nat) :
    foreach1 (Child.node blk) (n + 1) r
      = (List.finRange 64).flatMap (fun c => foreach1 (blk c) n (r * 64 + c.val)) := by
  rw [foreach1]; rfl

/-- Membership in the leaf-level visit list is exactly a set bit. -/
theorem mem_foreach1_leaf {t : Child} {v r : Nat} :
    v ∈ foreach1 t 0 r ↔ ∃ c, c < 64 ∧ t.getBits.testBit c ∧ v = r * 64 + c := by
  simp only [foreach1, List.mem_filterMap]
  constructor
  · rintro ⟨c, -, hc⟩
    by_cases hb : t.getBits.testBit c.val
    · simp only [hb, if_true, Option.some.injEq] at hc
      exact ⟨c.val, c.isLt, hb, hc.symm⟩
    · simp [hb] at hc
  · rintro ⟨c, hlt, hb, rfl⟩
    exact ⟨⟨c, hlt⟩, List.mem_finRange _, by simp [hb]⟩

/-- Zeroed memory reads as a NULL block pointer. -/
theorem getBlk_null : Child.null.getBlk = none := rfl

/-- A bitmask is not an allocated block (a bitmask is never read as a
pointer by the operations; its model value is NULL-like). -/
theorem getBlk_mask (b : Nat) : (Child.mask b).getBlk = none := rfl

/-- Child `t` identified as a block pointer. -/
theorem getBlk_some {t : Child} {blk : Fin 64 → Child} (h : t.getBlk = some blk) :
    t = Child.node blk := by
  cases t with
  | node b => simp only [Child.getBlk, Option.some.injEq] at h; rw [h]
  | null => simp [Child.getBlk] at h
  | mask b => simp [Child.getBlk] at h

/-- Every visit produced by a subtree at depth `n` under prefix `r` lies in
the prefix's value window. -/
theorem foreach1_bounds (n : Nat) :
    ∀ (t : Child) (r : Nat), ∀ v ∈ foreach1 t n r,
      r * 64 ^ (n + 1) ≤ v ∧ v < (r + 1) * 64 ^ (n + 1) := by
  induction n with
  | zero =>
    intro t r v hv
    rw [mem_foreach1_leaf] at hv
    obtain ⟨c, hlt, -, rfl⟩ := hv
    have h64 : (64 : Nat) ^ (0 + 1) = 64 := by norm_num
    rw [h64]
    omega
  | succ nn ih =>
    intro t r v hv
    cases t with
    | null => rw [foreach1_null] at hv; cases hv
    | mask b => rw [foreach1_noBlk (getBlk_mask b)] at hv; cases hv
    | node blk =>
      rw [foreach1_node, List.mem_flatMap] at hv
      obtain ⟨c, -, hc⟩ := hv
      obtain ⟨h1, h2⟩ := ih (blk c) (r * 64 + c.val) v hc
      have hcl : c.val < 64 := c.isLt
      constructor
      · calc r * 64 ^ (nn + 1 + 1) = (r * 64) * 64 ^ (nn + 1) := by ring
          _ ≤ (r * 64 + c.val) * 64 ^ (nn + 1) := mul_le_mul_right' (by omega) _
          _ ≤ v := h1
      · calc v < (r * 64 + c.val + 1) * 64 ^ (nn + 1) := h2
          _ ≤ ((r + 1) * 64) * 64 ^ (nn + 1) := mul_le_mul_right' (by omega) _
          _ = (r + 1) * 64 ^ (nn + 1 + 1) := by ring

/-- The visit list of any subtree is strictly increasing (lines 202-216
visit child indices in ascending order, and a later index contributes a
strictly larger value). -/
theorem foreach1_sorted (n : Nat) :
    ∀ (t : Child) (r : Nat), (foreach1 t n r).Sorted (· < ·) := by
  induction n with
  | zero =>
    intro t r
    show List.Pairwise _ _
    rw [foreach1, List.pairwise_filterMap]
    refine (List.pairwise_lt_finRange 64).imp ?_
    intro a b hab x hx y hy
    rw [Option.mem_def] at hx hy
    split at hx
    · split at hy
      · injection hx with hx
        injection hy with hy
        have hv : a.val < b.val := hab
        omega
      · cases hy
    · cases hx
  | succ nn ih =>
    intro t r
    cases t with
    | null => rw [foreach1_null]; exact List.sorted_nil
    | mask b => rw [foreach1_noBlk (getBlk_mask b)]; exact List.sorted_nil
    | node blk =>
      rw [foreach1_node, List.flatMap_def]
      show List.Pairwise _ _
      rw [List.pairwise_flatten]
      constructor
      · intro l hl
        rw [List.mem_map] at hl
        obtain ⟨c, -, rfl⟩ := hl
        exact ih (blk c) (r * 64 + c.val)
      · rw [List.pairwise_map]
        refine (List.pairwise_lt_finRange 64).imp ?_
        intro a b hab x hx y hy
        have hx2 := (foreach1_bounds nn (blk a) (r * 64 + a.val) x hx).2
        have hy1 := (foreach1_bounds nn (blk b) (r * 64 + b.val) y hy).1
        have : a.val < b.val := hab
        calc x < (r * 64 + a.val + 1) * 64 ^ (nn + 1) := hx2
          _ ≤ (r * 64 + b.val) * 64 ^ (nn + 1) := mul_le_mul_right' (by omega) _
          _ ≤ y := hy1

/-- Success case of the descent loop (lines 134-151): with enough
allocation budget it consumes `n+1` bytes, uses at most `n` allocations,
and its effect on the subtree's visit list is to add exactly the value of
the consumed digits. -/
theorem addLoop_spec (n : Nat) :
    ∀ (t : Child) (s : List Nat) (i fuel : Nat), n ≤ fuel →
      ∃ t1 fuel1,
        addLoop s t i n fuel = (t1, some (i + n + 1), fuel1) ∧ fuel - n ≤ fuel1 ∧
        ∀ r v, v ∈ foreach1 t1 n r ↔ (v ∈ foreach1 t n r ∨ v = r * 64 ^ (n + 1) + sVal s i n) := by
  induction n with
  | zero =>
    intro t s i fuel _
    refine ⟨Child.mask (t.getBits ||| 2 ^ (byteAt s i % 64)), fuel, rfl, by omega, ?_⟩
    intro r v
    rw [mem_foreach1_leaf, mem_foreach1_leaf]
    have hlt : byteAt s i % 64 < 64 := by omega
    constructor
    · rintro ⟨c, hc, hb, rfl⟩
      simp only [Child.getBits, Nat.testBit_or, Bool.or_eq_true] at hb
      rcases hb with hb | hb
      · exact Or.inl ⟨c, hc, hb, rfl⟩
      · right
        rw [Nat.testBit_two_pow] at hb
        have hcv : byteAt s i % 64 = c := of_decide_eq_true hb
        rw [sVal, ← hcv]
        have h64 : (64 : Nat) ^ (0 + 1) = 64 := by norm_num
        rw [h64]
    · rintro (⟨c, hc, hb, rfl⟩ | rfl)
      · exact ⟨c, hc, by rw [Child.getBits, Nat.testBit_or, hb, Bool.true_or], rfl⟩
      · refine ⟨byteAt s i % 64, hlt, ?_, ?_⟩
        · rw [Child.getBits, Nat.testBit_or, Nat.testBit_two_pow]
          simp
        · rw [sVal]
          have h64 : (64 : Nat) ^ (0 + 1) = 64 := by norm_num
          rw [h64]
  | succ nn ih =>
    intro t s i fuel hfuel
    cases hblk : t.getBlk with
    | some blk =>
      have hens : ensure t fuel = some (blk, fuel) := by rw [ensure.eq_def, hblk]
      obtain ⟨t2, fuel2, heq, hf2, hmem⟩ :=
        ih (blk ⟨byteAt s i % 64, by omega⟩) s (i + 1) fuel (by omega)
      refine ⟨Child.node (Function.update blk ⟨byteAt s i % 64, by omega⟩ t2), fuel2, ?_, by omega, ?_⟩
      · rw [addLoop, hens]
        simp only [heq]
        have : i + 1 + nn + 1 = i + (nn + 1) + 1 := by omega
        rw [this]
      · intro r v
        rw [getBlk_some hblk, foreach1_node, foreach1_node, List.mem_flatMap, List.mem_flatMap]
        set cF : Fin 64 := ⟨byteAt s i % 64, by omega⟩ with hcF
        have harith : (r * 64 + byteAt s i % 64) * 64 ^ (nn + 1) + sVal s (i + 1) nn
            = r * 64 ^ (nn + 1 + 1) + sVal s i (nn + 1) := by
          rw [sVal]; ring
        constructor
        · rintro ⟨c, -, hc⟩
          by_cases hcc : c = cF
          · subst hcc
            rw [Function.update_same] at hc
            rcases (hmem (r * 64 + cF.val) v).1 hc with h | h
            · exact Or.inl ⟨cF, List.mem_finRange _, h⟩
            · right; rw [h, ← harith]
          · rw [Function.update_noteq hcc] at hc
            exact Or.inl ⟨c, List.mem_finRange _, hc⟩
        · rintro (⟨c, -, hc⟩ | rfl)
          · by_cases hcc : c = cF
            · subst hcc
              refine ⟨cF, List.mem_finRange _, ?_⟩
              rw [Function.update_same]
              exact (hmem (r * 64 + cF.val) v).2 (Or.inl hc)
            · exact ⟨c, List.mem_finRange _, by rwa [Function.update_noteq hcc]⟩
          · refine ⟨cF, List.mem_finRange _, ?_⟩
            rw [Function.update_same]
            exact (hmem (r * 64 + cF.val) _).2 (Or.inr harith.symm)
    | none =>
      obtain ⟨f, rfl⟩ : ∃ f, fuel = f + 1 := ⟨fuel - 1, by omega⟩
      have hens : ensure t (f + 1) = some (fun _ => Child.null, f) := by rw [ensure.eq_def, hblk]
      obtain ⟨t2, fuel2, heq, hf2, hmem⟩ :=
        ih Child.null s (i + 1) f (by omega)
      refine ⟨Child.node (Function.update (fun _ => Child.null) ⟨byteAt s i % 64, by omega⟩ t2),
        fuel2, ?_, by omega, ?_⟩
      · rw [addLoop, hens]
        simp only [heq]
        have : i + 1 + nn + 1 = i + (nn + 1) + 1 := by omega
        rw [this]
      · intro r v
        rw [foreach1_noBlk hblk, foreach1_node, List.mem_flatMap]
        set cF : Fin 64 := ⟨byteAt s i % 64, by omega⟩ with hcF
        have harith : (r * 64 + byteAt s i % 64) * 64 ^ (nn + 1) + sVal s (i + 1) nn
            = r * 64 ^ (nn + 1 + 1) + sVal s i (nn + 1) := by
          rw [sVal]; ring
        constructor
        · rintro ⟨c, -, hc⟩
          by_cases hcc : c = cF
          · subst hcc
            rw [Function.update_same] at hc
            rcases (hmem (r * 64 + cF.val) v).1 hc with h | h
            · rw [foreach1_null] at h; cases h
            · right; rw [h, ← harith]
          · rw [Function.update_noteq hcc] at hc
            rw [foreach1_null] at hc; cases hc
        · rintro (h | rfl)
          · cases h
          · refine ⟨cF, List.mem_finRange _, ?_⟩
            rw [Function.update_same]
            exact (hmem (r * 64 + cF.val) _).2 (Or.inr harith.symm)

/-- An allocated inner node is read back as its block. -/
theorem ensure_node (blk : Fin 64 → Child) (fuel : Nat) :
    ensure (Child.node blk) fuel = some (blk, fuel) := rfl

/-- Setting a bit twice is the same as setting it once. -/
theorem lor_lor_self (a b : Nat) : a ||| b ||| b = a ||| b := by
  rw [Nat.lor_assoc]
  simp

/-- Failure case of the descent loop: the subtree's visit list is
unchanged (blocks allocated before the failure are zeroed and contribute
no visits, and no leaf bit has been set). -/
theorem addLoop_fail (n : Nat) :
    ∀ (t : Child) (s : List Nat) (i fuel : Nat),
      (addLoop s t i n fuel).2.1 = none →
      ∀ r, foreach1 (addLoop s t i n fuel).1 n r = foreach1 t n r := by
  induction n with
  | zero =>
    intro t s i fuel h r
    simp [addLoop] at h
  | succ nn ih =>
    intro t s i fuel h r
    cases hblk : t.getBlk with
    | some blk =>
      have hens : ensure t fuel = some (blk, fuel) := by rw [ensure.eq_def, hblk]
      simp only [addLoop, hens] at h ⊢
      rw [getBlk_some hblk, foreach1_node, foreach1_node]
      refine congrArg _ (funext fun c => ?_)
      by_cases hcc : c = (⟨byteAt s i % 64, by omega⟩ : Fin 64)
      · subst hcc
        rw [Function.update_same]
        exact ih _ s (i + 1) fuel h _
      · rw [Function.update_noteq hcc]
    | none =>
      cases fuel with
      | zero =>
        have hens : ensure t 0 = none := by rw [ensure.eq_def, hblk]
        simp only [addLoop, hens]
      | succ f =>
        have hens : ensure t (f + 1) = some (fun _ => Child.null, f) := by
          rw [ensure.eq_def, hblk]
        simp only [addLoop, hens] at h ⊢
        rw [foreach1_noBlk hblk, foreach1_node, List.flatMap_eq_nil_iff]
        intro c _
        by_cases hcc : c = (⟨byteAt s i % 64, by omega⟩ : Fin 64)
        · subst hcc
          rw [Function.update_same]
          rw [ih _ s (i + 1) f h _]
          exact foreach1_null nn _
        · rw [Function.update_noteq hcc]
          exact foreach1_null nn _

/-- Inserting along a path that a successful call has just built succeeds
again with no allocation and leaves the subtree identical. -/
theorem addLoop_idem (n : Nat) :
    ∀ (t : Child) (s : List Nat) (i fuel : Nat) (t1 : Child) (j fuel1 : Nat),
      addLoop s t i n fuel = (t1, some j, fuel1) →
      ∀ g, addLoop s t1 i n g = (t1, some j, g) := by
  induction n with
  | zero =>
    intro t s i fuel t1 j fuel1 h g
    simp only [addLoop, Prod.mk.injEq] at h
    obtain ⟨h1, h2, h3⟩ := h
    injection h2 with h2
    subst h1
    rw [addLoop, Child.getBits, lor_lor_self, h2]
  | succ nn ih =>
    intro t s i fuel t1 j fuel1 h g
    cases hblk : t.getBlk with
    | some blk =>
      have hens : ensure t fuel = some (blk, fuel) := by rw [ensure.eq_def, hblk]
      simp only [addLoop, hens, Prod.mk.injEq] at h
      obtain ⟨h1, h2, h3⟩ := h
      have hA : addLoop s (blk ⟨byteAt s i % 64, by omega⟩) (i + 1) nn fuel
          = ((addLoop s (blk ⟨byteAt s i % 64, by omega⟩) (i + 1) nn fuel).1, some j,
             (addLoop s (blk ⟨byteAt s i % 64, by omega⟩) (i + 1) nn fuel).2.2) := by
        rw [← h2]
      have hrec := ih _ s (i + 1) fuel _ _ _ hA g
      subst h1
      simp only [addLoop, ensure_node, Function.update_same, hrec, Function.update_idem]
    | none =>
      cases fuel with
      | zero =>
        have hens : ensure t 0 = none := by rw [ensure.eq_def, hblk]
        simp only [addLoop, hens, Prod.mk.injEq] at h
        exact absurd h.2.1 (by simp)
      | succ f =>
        have hens : ensure t (f + 1) = some (fun _ => Child.null, f) := by
          rw [ensure.eq_def, hblk]
        simp only [addLoop, hens, Prod.mk.injEq] at h
        obtain ⟨h1, h2, h3⟩ := h
        have hA : addLoop s Child.null (i + 1) nn f
            = ((addLoop s Child.null (i + 1) nn f).1, some j,
               (addLoop s Child.null (i + 1) nn f).2.2) := by
          rw [← h2]
        have hrec := ih _ s (i + 1) f _ _ _ hA g
        subst h1
        simp only [addLoop, ensure_node, Function.update_same, hrec, Function.update_idem]

/-- Unfolding of `addutf` in the leading-byte branch (`c >= 0300`). -/
theorem addutf_leading_eq (set : UTFSet) (s : List Nat) (i fuel : Nat)
    (h : 0xC0 ≤ byteAt s i) :
    addutf set s i fuel
      = (Function.update set ⟨byteAt s i % 64, by omega⟩
           (addLoop s (set ⟨byteAt s i % 64, by omega⟩) (i + 1)
             (clo6At (byteAt s i % 64)) fuel).1,
         (addLoop s (set ⟨byteAt s i % 64, by omega⟩) (i + 1)
           (clo6At (byteAt s i % 64)) fuel).2.1,
         (addLoop s (set ⟨byteAt s i % 64, by omega⟩) (i + 1)
           (clo6At (byteAt s i % 64)) fuel).2.2) := by
  rw [addutf, if_pos h]

/-- Unfolding of `addutf` in the ASCII branch (`c < 0200`): the root index
is the byte's top bit and the same byte is re-read as the final byte. -/
theorem addutf_ascii_eq (set : UTFSet) (s : List Nat) (i fuel : Nat)
    (h : byteAt s i < 0x80) :
    addutf set s i fuel
      = (Function.update set ⟨byteAt s i / 64, by
            have hb : byteAt s i < 256 := Nat.mod_lt _ (by decide)
            omega⟩
           (addLoop s (set ⟨byteAt s i / 64, by
              have hb : byteAt s i < 256 := Nat.mod_lt _ (by decide)
              omega⟩) i 0 fuel).1,
         (addLoop s (set ⟨byteAt s i / 64, by
            have hb : byteAt s i < 256 := Nat.mod_lt _ (by decide)
            omega⟩) i 0 fuel).2.1,
         (addLoop s (set ⟨byteAt s i / 64, by
            have hb : byteAt s i < 256 := Nat.mod_lt _ (by decide)
            omega⟩) i 0 fuel).2.2) := by
  rw [addutf, if_neg (by omega), if_pos h]

/-- Behaviour of `addutf` on a bare continuation byte (lines 116-122):
failure, and the set, the cursor position and the budget are untouched. -/
theorem addutf_continuation (set : UTFSet) (s : List Nat) (i fuel : Nat)
    (h1 : 0x80 ≤ byteAt s i) (h2 : byteAt s i < 0xC0) :
    addutf set s i fuel = (set, none, fuel) := by
  rw [addutf, if_neg (by omega), if_neg (by omega)]

/-- Cursor arithmetic of the leading-byte branch: with enough budget,
`n = clo6[c % 64]` further allocations at most, and the returned cursor
skips the leading byte plus `n + 1` more bytes. -/
theorem addutf_leading_cursor (set : UTFSet) (s : List Nat) (i fuel : Nat)
    (h : 0xC0 ≤ byteAt s i) (hf : clo6At (byteAt s i % 64) ≤ fuel) :
    (addutf set s i fuel).2.1 = some (i + clo6At (byteAt s i % 64) + 2) := by
  obtain ⟨t1, fuel1, heq, -, -⟩ :=
    addLoop_spec (clo6At (byteAt s i % 64)) (set ⟨byteAt s i % 64, by omega⟩) s (i + 1) fuel hf
  rw [addutf_leading_eq set s i fuel h]
  simp only [heq]
  have harith : i + 1 + clo6At (byteAt s i % 64) + 1 = i + clo6At (byteAt s i % 64) + 2 := by
    omega
  rw [harith]

/-- Any failing `addutf` call leaves the observable contents unchanged:
the visit sequence of a subsequent `foreach` is what it was before. -/
theorem addutf_fail_foreach (set : UTFSet) (s : List Nat) (i fuel : Nat)
    (h : (addutf set s i fuel).2.1 = none) :
    foreach (addutf set s i fuel).1 = foreach set := by
  by_cases hc : 0xC0 ≤ byteAt s i
  · rw [addutf_leading_eq set s i fuel hc] at h ⊢
    dsimp only at h ⊢
    rw [foreach, foreach]
    refine congrArg _ (funext fun c => ?_)
    by_cases hcc : c = (⟨byteAt s i % 64, by omega⟩ : Fin 64)
    · subst hcc
      rw [Function.update_same]
      exact addLoop_fail _ _ s (i + 1) fuel h _
    · rw [Function.update_noteq hcc]
  · by_cases ha : byteAt s i < 0x80
    · rw [addutf_ascii_eq set s i fuel ha] at h
      dsimp only at h
      simp [addLoop] at h
    · rw [addutf_continuation set s i fuel (by omega) (by omega)]

/-- Once `addutf` has succeeded, repeating the identical call is a no-op:
it succeeds with the same cursor, needs no allocation, and returns the
very same set. -/
theorem addutf_idem (set : UTFSet) (s : List Nat) (i fuel : Nat) (set1 : UTFSet)
    (j fuel1 : Nat) (h : addutf set s i fuel = (set1, some j, fuel1)) :
    ∀ g, addutf set1 s i g = (set1, some j, g) := by
  intro g
  by_cases hc : 0xC0 ≤ byteAt s i
  · rw [addutf_leading_eq set s i fuel hc] at h
    rw [addutf_leading_eq set1 s i g hc]
    simp only [Prod.mk.injEq] at h
    obtain ⟨h1, h2, h3⟩ := h
    have hA : addLoop s (set ⟨byteAt s i % 64, by omega⟩) (i + 1)
        (clo6At (byteAt s i % 64)) fuel
        = ((addLoop s (set ⟨byteAt s i % 64, by omega⟩) (i + 1)
             (clo6At (byteAt s i % 64)) fuel).1, some j,
           (addLoop s (set ⟨byteAt s i % 64, by omega⟩) (i + 1)
             (clo6At (byteAt s i % 64)) fuel).2.2) := by
      rw [← h2]
    have hrec := addLoop_idem _ _ s (i + 1) fuel _ _ _ hA g
    subst h1
    simp only [Function.update_same, hrec, Function.update_idem]
  · by_cases ha : byteAt s i < 0x80
    · rw [addutf_ascii_eq set s i fuel ha] at h
      rw [addutf_ascii_eq set1 s i g ha]
      simp only [Prod.mk.injEq] at h
      obtain ⟨h1, h2, h3⟩ := h
      have hA : addLoop s (set ⟨byteAt s i / 64, by
            have hb : byteAt s i < 256 := Nat.mod_lt _ (by decide)
            omega⟩) i 0 fuel
          = ((addLoop s (set ⟨byteAt s i / 64, by
               have hb : byteAt s i < 256 := Nat.mod_lt _ (by decide)
               omega⟩) i 0 fuel).1, some j,
             (addLoop s (set ⟨byteAt s i / 64, by
               have hb : byteAt s i < 256 := Nat.mod_lt _ (by decide)
               omega⟩) i 0 fuel).2.2) := by
        rw [← h2]
      have hrec := addLoop_idem _ _ s i fuel _ _ _ hA g
      subst h1
      simp only [Function.update_same, hrec, Function.update_idem]
    · rw [addutf_continuation set s i fuel (by omega) (by omega)] at h
      simp only [Prod.mk.injEq] at h
      exact absurd h.2.1 (by simp)

/-- Folding a callback over a concatenation of blocks is folding it
blockwise. -/
theorem foldl_flatMap_blocks {α σ : Type} (l : List α) (g : α → List Nat)
    (fcn : Nat → σ → σ) (acc : σ) :
    (l.flatMap g).foldl (fun a v => fcn v a) acc
      = l.foldl (fun a x => (g x).foldl (fun a v => fcn v a) a) acc := by
  induction l generalizing acc with
  | nil => rfl
  | cons x xs ih =>
    rw [List.flatMap_cons, List.foldl_append, List.foldl_cons, ih]

/-- Folding a callback over a filtered enumeration is a guarded fold. -/
theorem foldl_filterMap_guard {α σ : Type} (l : List α) (p : α → Bool)
    (val : α → Nat) (fcn : Nat → σ → σ) (acc : σ) :
    ((l.filterMap fun c => if p c then some (val c) else none).foldl
        (fun a v => fcn v a) acc)
      = l.foldl (fun a c => if p c then fcn (val c) a else a) acc := by
  induction l generalizing acc with
  | nil => rfl
  | cons x xs ih =>
    by_cases hp : p x
    · rw [List.filterMap_cons, if_pos hp, List.foldl_cons, List.foldl_cons, if_pos hp, ih]
    · rw [List.filterMap_cons, if_neg hp, List.foldl_cons, if_neg hp, ih]

/-- Congruence for folds with pointwise-equal step functions. -/
theorem foldl_congr_fun {α σ : Type} (l : List α) (f g : σ → α → σ) (acc : σ)
    (h : ∀ a c, f a c = g a c) : l.foldl f acc = l.foldl g acc := by
  have hfg : f = g := funext fun a => funext fun c => h a c
  rw [hfg]

/-- The callback interface of `foreach1` is the fold of its pure visit
list: the node traversal performs exactly those calls and nothing else. -/
theorem foreach1F_eq_foldl {σ : Type} (n : Nat) :
    ∀ (t : Child) (r : Nat) (fcn : Nat → σ → σ) (acc : σ),
      foreach1F t n r fcn acc = (foreach1 t n r).foldl (fun a v => fcn v a) acc := by
  induction n with
  | zero =>
    intro t r fcn acc
    rw [foreach1F, foreach1, foldl_filterMap_guard]
  | succ nn ih =>
    intro t r fcn acc
    cases hblk : t.getBlk with
    | some blk =>
      rw [foreach1F, hblk, getBlk_some hblk, foreach1_node, foldl_flatMap_blocks]
      refine foldl_congr_fun _ _ _ _ ?_
      intro a c
      exact ih (blk c) (r * 64 + c.val) fcn a
    | none =>
      rw [foreach1F, hblk, foreach1_noBlk hblk]
      rfl

/-- The callback interface of `foreach` is the fold of its pure visit
list over the callback: the traversal reads the set, invokes the callback
once per stored rune, and does nothing else (no mutation, no failure). -/
theorem foreachF_eq_foldl {σ : Type} (set : UTFSet) (fcn : Nat → σ → σ) (acc : σ) :
    foreachF set fcn acc = (foreach set).foldl (fun a v => fcn v a) acc := by
  rw [foreachF, foreach, foldl_flatMap_blocks]
  refine foldl_congr_fun _ _ _ _ ?_
  intro a c
  exact foreach1F_eq_foldl _ _ _ _ _

/-- The code's descent loop is the spec-instrumented one with the error
kind erased to a bare failure. -/
theorem addLoopE_erase (n : Nat) :
    ∀ (t : Child) (s : List Nat) (i fuel : Nat),
      addLoop s t i n fuel
        = ((addLoopE s t i n fuel).1, (addLoopE s t i n fuel).2.1.toOption,
           (addLoopE s t i n fuel).2.2) := by
  induction n with
  | zero =>
    intro t s i fuel
    rfl
  | succ nn ih =>
    intro t s i fuel
    cases hens : ensure t fuel with
    | none => simp only [addLoop, addLoopE, hens]; rfl
    | some p =>
      obtain ⟨blk, fuel1⟩ := p
      simp only [addLoop, addLoopE, hens]
      rw [ih]

/-- The code's `addutf` is the spec-instrumented `addutfE` with the two
error kinds erased to the same bare failure (`NULL`). -/
theorem addutf_erase (set : UTFSet) (s : List Nat) (i fuel : Nat) :
    addutf set s i fuel
      = ((addutfE set s i fuel).1, (addutfE set s i fuel).2.1.toOption,
         (addutfE set s i fuel).2.2) := by
  rw [addutf, addutfE]
  split_ifs with h1 h2
  · dsimp only
    rw [addLoopE_erase]
  · dsimp only
    rw [addLoopE_erase]
  · rfl

/-- Entries 0 to 31 of the `clo6` table are 0. -/
theorem clo6At_lt32 : ∀ c < 32, clo6At c = 0 := by decide

/-- Entries 32 to 47 of the `clo6` table are 1. -/
theorem clo6At_mid : ∀ c < 48, 32 ≤ c → clo6At c = 1 := by decide

/-- Entries 48 to 52 of the `clo6` table are 2. -/
theorem clo6At_high : ∀ c < 53, 48 ≤ c → clo6At c = 2 := by decide

/-- The root index of an in-range rune is a valid index. -/
theorem slotOf_lt (r : Nat) (h : r < 0x110000) : slotOf r < 64 := by
  rw [slotOf]
  split_ifs <;> omega

/-- The root index used by canonical encodings is monotone in the rune. -/
theorem slotOf_mono (v w : Nat) (h : w ≤ v) : slotOf w ≤ slotOf v := by
  rw [slotOf, slotOf]
  split_ifs <;> omega

/-- Depth of the subtree that stores an in-range rune. -/
theorem clo6At_slotOf (r : Nat) (h : r < 0x110000) :
    clo6At (slotOf r) = if r < 0x800 then 0 else if r < 0x10000 then 1 else 2 := by
  rw [slotOf]
  split_ifs with h1 h2
  · exact clo6At_lt32 _ (by omega)
  · exact clo6At_mid _ (by omega) (by omega)
  · exact clo6At_high _ (by omega) (by omega)

/-- Reassembling the foreach base value with the trailing bits of an
in-range rune yields the rune back: the canonical path decodes to its
rune. -/
theorem canon_decode (r : Nat) (h : r < 0x110000) :
    (slotOf r % (64 >>> clo6At (slotOf r))) * 64 ^ (clo6At (slotOf r) + 1)
      + r % 64 ^ (clo6At (slotOf r) + 1) = r := by
  rw [clo6At_slotOf r h, slotOf]
  split_ifs with h1 h2
  · rw [show (64 : Nat) >>> 0 = 64 from rfl, show (64 : Nat) ^ (0 + 1) = 64 from rfl]
    omega
  · rw [show (64 : Nat) >>> 1 = 32 from rfl, show (64 : Nat) ^ (1 + 1) = 4096 from rfl]
    omega
  · rw [show (64 : Nat) >>> 2 = 16 from rfl, show (64 : Nat) ^ (2 + 1) = 262144 from rfl]
    omega

/-- Length of the canonical encoding. -/
theorem encodeUtf8_length (r : Nat) : (encodeUtf8 r).length = utf8Len r := by
  rw [encodeUtf8, utf8Len]
  split_ifs <;> rfl

set_option maxHeartbeats 1000000 in
/-- Effect of `addutf` in the leading-byte branch, phrased through the
root index and trailing bits of the rune being encoded. -/
theorem addutf_encode_leading (r : Nat) (hr : r < 0x110000) (set : UTFSet) (s : List Nat)
    (i fuel : Nat) (hb0 : 0xC0 ≤ byteAt s i) (hslot : byteAt s i % 64 = slotOf r)
    (hfn : clo6At (slotOf r) ≤ fuel)
    (hsv : sVal s (i + 1) (clo6At (slotOf r)) = r % 64 ^ (clo6At (slotOf r) + 1)) :
    ∃ t1 fuel1, fuel - clo6At (slotOf r) ≤ fuel1 ∧
      addutf set s i fuel
        = (Function.update set ⟨slotOf r, slotOf_lt r hr⟩ t1,
           some (i + clo6At (slotOf r) + 2), fuel1) ∧
      ∀ v, v ∈ foreach1 t1 (clo6At (slotOf r)) (slotOf r % (64 >>> clo6At (slotOf r)))
        ↔ (v ∈ foreach1 (set ⟨slotOf r, slotOf_lt r hr⟩) (clo6At (slotOf r))
              (slotOf r % (64 >>> clo6At (slotOf r))) ∨ v = r) := by
  have hcl : clo6At (byteAt s i % 64) = clo6At (slotOf r) := by rw [hslot]
  have hFin : (⟨byteAt s i % 64, by omega⟩ : Fin 64) = ⟨slotOf r, slotOf_lt r hr⟩ :=
    Fin.ext hslot
  obtain ⟨t1, fuel1, heq, hf1, hmem⟩ :=
    addLoop_spec (clo6At (byteAt s i % 64)) (set ⟨byteAt s i % 64, by omega⟩) s (i + 1) fuel
      (by rw [hcl]; exact hfn)
  refine ⟨t1, fuel1, by rw [hcl] at hf1; exact hf1, ?_, ?_⟩
  · rw [addutf_leading_eq set s i fuel hb0, heq]
    dsimp only
    rw [hFin, hcl, show i + 1 + clo6At (slotOf r) + 1 = i + clo6At (slotOf r) + 2 from by omega]
  · intro v
    have hm := hmem (slotOf r % (64 >>> clo6At (slotOf r))) v
    rw [hcl, hFin, hsv, canon_decode r hr] at hm
    exact hm

/-- Effect of `addutf` in the ASCII branch, phrased through the root
index and trailing bits of the rune being encoded.  The ASCII byte is
consumed exactly once (cursor advances by one) and no allocation is
performed (the budget is returned unchanged). -/
theorem addutf_encode_ascii (r : Nat) (hr : r < 0x80) (set : UTFSet) (s : List Nat)
    (i fuel : Nat) (hb : byteAt s i = r) :
    ∃ t1 fuel1, fuel - 2 ≤ fuel1 ∧
      addutf set s i fuel
        = (Function.update set ⟨slotOf r, slotOf_lt r (by omega)⟩ t1, some (i + 1), fuel1) ∧
      ∀ v, v ∈ foreach1 t1 (clo6At (slotOf r)) (slotOf r % (64 >>> clo6At (slotOf r)))
        ↔ (v ∈ foreach1 (set ⟨slotOf r, slotOf_lt r (by omega)⟩) (clo6At (slotOf r))
              (slotOf r % (64 >>> clo6At (slotOf r))) ∨ v = r) := by
  have hslot : slotOf r = r / 64 := by rw [slotOf, if_pos (by omega)]
  have hn : clo6At (slotOf r) = 0 := by
    rw [hslot]
    exact clo6At_lt32 _ (by omega)
  have hFin : (⟨byteAt s i / 64, by
        have hb2 : byteAt s i < 256 := Nat.mod_lt _ (by decide)
        omega⟩ : Fin 64) = ⟨slotOf r, slotOf_lt r (by omega)⟩ := by
    refine Fin.ext ?_
    show byteAt s i / 64 = slotOf r
    rw [hb, hslot]
  obtain ⟨t1, fuel1, heq, -, hmem⟩ :=
    addLoop_spec 0 (set ⟨byteAt s i / 64, by
      have hb2 : byteAt s i < 256 := Nat.mod_lt _ (by decide)
      omega⟩) s i fuel (Nat.zero_le _)
  have hch : addLoop s (set ⟨byteAt s i / 64, by
        have hb2 : byteAt s i < 256 := Nat.mod_lt _ (by decide)
        omega⟩) i 0 fuel
      = (Child.mask ((set ⟨byteAt s i / 64, by
            have hb2 : byteAt s i < 256 := Nat.mod_lt _ (by decide)
            omega⟩).getBits ||| 2 ^ (byteAt s i % 64)), some (i + 1), fuel) := rfl
  rw [heq] at hch
  simp only [Prod.mk.injEq] at hch
  obtain ⟨ht1, -, hfuel1⟩ := hch
  refine ⟨t1, fuel1, by omega, ?_, ?_⟩
  · rw [addutf_ascii_eq set s i fuel (by omega), heq]
    dsimp only
    rw [hFin, show i + 0 + 1 = i + 1 from by omega]
  · intro v
    rw [hn, show (64 : Nat) >>> 0 = 64 from rfl, ← hFin]
    have hm := hmem (slotOf r % 64) v
    rw [sVal] at hm
    have hx : slotOf r % 64 * 64 ^ (0 + 1) + byteAt s i % 64 = r := by
      rw [show (64 : Nat) ^ (0 + 1) = 64 from rfl, hb]
      have hd := canon_decode r (by omega)
      rw [hn, show (64 : Nat) >>> 0 = 64 from rfl,
        show (64 : Nat) ^ (0 + 1) = 64 from rfl] at hd
      exact hd
    rw [hx] at hm
    exact hm

/-- Effect of one `addutf` call on the canonical encoding of an in-range
rune `r`: it succeeds (two allocations suffice), consumes exactly
`utf8Len r` bytes, rewrites only root slot `slotOf r`, and adds exactly
the value `r` to that slot's visit list. -/
theorem addutf_encode (r : Nat) (hr : r < 0x110000) (set : UTFSet) (s : List Nat)
    (i fuel : Nat) (hs : EncAt s i r) (hf : 2 ≤ fuel) :
    ∃ t1 fuel1, fuel - 2 ≤ fuel1 ∧
      addutf set s i fuel
        = (Function.update set ⟨slotOf r, slotOf_lt r hr⟩ t1, some (i + utf8Len r), fuel1) ∧
      ∀ v, v ∈ foreach1 t1 (clo6At (slotOf r)) (slotOf r % (64 >>> clo6At (slotOf r)))
        ↔ (v ∈ foreach1 (set ⟨slotOf r, slotOf_lt r hr⟩) (clo6At (slotOf r))
              (slotOf r % (64 >>> clo6At (slotOf r))) ∨ v = r) := by
  by_cases h1 : r < 0x80
  · have hlen : utf8Len r = 1 := by rw [utf8Len, if_pos h1]
    have e0 : s.getD i 0 = r := by
      have h := hs 0 (by omega)
      rw [encodeUtf8, if_pos h1] at h
      simpa using h
    have hb : byteAt s i = r := by
      rw [byteAt, e0]
      omega
    obtain ⟨t1, fuel1, hf1, heq, hmem⟩ := addutf_encode_ascii r h1 set s i fuel hb
    refine ⟨t1, fuel1, hf1, ?_, hmem⟩
    rw [heq, hlen]
  · by_cases h2 : r < 0x800
    · have hlen : utf8Len r = 2 := by rw [utf8Len, if_neg h1, if_pos h2]
      have e0 : s.getD i 0 = 0xC0 + r / 64 := by
        have h := hs 0 (by omega)
        rw [encodeUtf8, if_neg h1, if_pos h2] at h
        simpa using h
      have e1 : s.getD (i + 1) 0 = 0x80 + r % 64 := by
        have h := hs 1 (by omega)
        rw [encodeUtf8, if_neg h1, if_pos h2] at h
        simpa using h
      have hb0 : byteAt s i = 0xC0 + r / 64 := by rw [byteAt, e0]; omega
      have hb1 : byteAt s (i + 1) = 0x80 + r % 64 := by rw [byteAt, e1]; omega
      have hslot : byteAt s i % 64 = slotOf r := by
        rw [hb0, slotOf, if_pos h2]
        omega
      have hn : clo6At (slotOf r) = 0 := by
        rw [slotOf, if_pos h2]
        exact clo6At_lt32 _ (by omega)
      obtain ⟨t1, fuel1, hf1, heq, hmem⟩ :=
        addutf_encode_leading r hr set s i fuel (by rw [hb0]; omega) hslot
          (by rw [hn]; omega)
          (by rw [hn, sVal, hb1, show (64 : Nat) ^ (0 + 1) = 64 from rfl]; omega)
      refine ⟨t1, fuel1, by omega, ?_, hmem⟩
      rw [show i + clo6At (slotOf r) + 2 = i + utf8Len r from by rw [hn, hlen]] at heq
      exact heq
    · by_cases h3 : r < 0x10000
      · have hlen : utf8Len r = 3 := by rw [utf8Len, if_neg h1, if_neg h2, if_pos h3]
        have e0 : s.getD i 0 = 0xE0 + r / 4096 := by
          have h := hs 0 (by omega)
          rw [encodeUtf8, if_neg h1, if_neg h2, if_pos h3] at h
          simpa using h
        have e1 : s.getD (i + 1) 0 = 0x80 + r / 64 % 64 := by
          have h := hs 1 (by omega)
          rw [encodeUtf8, if_neg h1, if_neg h2, if_pos h3] at h
          simpa using h
        have e2 : s.getD (i + 2) 0 = 0x80 + r % 64 := by
          have h := hs 2 (by omega)
          rw [encodeUtf8, if_neg h1, if_neg h2, if_pos h3] at h
          simpa using h
        have hb0 : byteAt s i = 0xE0 + r / 4096 := by rw [byteAt, e0]; omega
        have hb1 : byteAt s (i + 1) = 0x80 + r / 64 % 64 := by rw [byteAt, e1]; omega
        have hb2 : byteAt s (i + 1 + 1) = 0x80 + r % 64 := by
          rw [show i + 1 + 1 = i + 2 from rfl, byteAt, e2]
          omega
        have hslot : byteAt s i % 64 = slotOf r := by
          rw [hb0, slotOf, if_neg h2, if_pos h3]
          omega
        have hn : clo6At (slotOf r) = 1 := by
          rw [slotOf, if_neg h2, if_pos h3]
          exact clo6At_mid _ (by omega) (by omega)
        obtain ⟨t1, fuel1, hf1, heq, hmem⟩ :=
          addutf_encode_leading r hr set s i fuel (by rw [hb0]; omega) hslot
            (by rw [hn]; omega)
            (by
              rw [hn, sVal, sVal, hb1, hb2, show (64 : Nat) ^ (0 + 1) = 64 from rfl,
                show (64 : Nat) ^ (1 + 1) = 4096 from rfl]
              omega)
        refine ⟨t1, fuel1, by omega, ?_, hmem⟩
        rw [show i + clo6At (slotOf r) + 2 = i + utf8Len r from by rw [hn, hlen]] at heq
        exact heq
      · have hlen : utf8Len r = 4 := by rw [utf8Len, if_neg h1, if_neg h2, if_neg h3]
        have e0 : s.getD i 0 = 0xF0 + r / 262144 := by
          have h := hs 0 (by omega)
          rw [encodeUtf8, if_neg h1, if_neg h2, if_neg h3] at h
          simpa using h
        have e1 : s.getD (i + 1) 0 = 0x80 + r / 4096 % 64 := by
          have h := hs 1 (by omega)
          rw [encodeUtf8, if_neg h1, if_neg h2, if_neg h3] at h
          simpa using h
        have e2 : s.getD (i + 2) 0 = 0x80 + r / 64 % 64 := by
          have h := hs 2 (by omega)
          rw [encodeUtf8, if_neg h1, if_neg h2, if_neg h3] at h
          simpa using h
        have e3 : s.getD (i + 3) 0 = 0x80 + r % 64 := by
          have h := hs 3 (by omega)
          rw [encodeUtf8, if_neg h1, if_neg h2, if_neg h3] at h
          simpa using h
        have hb0 : byteAt s i = 0xF0 + r / 262144 := by rw [byteAt, e0]; omega
        have hb1 : byteAt s (i + 1) = 0x80 + r / 4096 % 64 := by rw [byteAt, e1]; omega
        have hb2 : byteAt s (i + 1 + 1) = 0x80 + r / 64 % 64 := by
          rw [show i + 1 + 1 = i + 2 from rfl, byteAt, e2]
          omega
        have hb3 : byteAt s (i + 1 + 1 + 1) = 0x80 + r % 64 := by
          rw [show i + 1 + 1 + 1 = i + 3 from rfl, byteAt, e3]
          omega
        have hslot : byteAt s i % 64 = slotOf r := by
          rw [hb0, slotOf, if_neg h2, if_neg h3]
          omega
        have hn : clo6At (slotOf r) = 2 := by
          rw [slotOf, if_neg h2, if_neg h3]
          exact clo6At_high _ (by omega) (by omega)
        obtain ⟨t1, fuel1, hf1, heq, hmem⟩ :=
          addutf_encode_leading r hr set s i fuel (by rw [hb0]; omega) hslot
            (by rw [hn]; omega)
            (by
              rw [hn, sVal, sVal, sVal, hb1, hb2, hb3,
                show (64 : Nat) ^ (0 + 1) = 64 from rfl,
                show (64 : Nat) ^ (1 + 1) = 4096 from rfl,
                show (64 : Nat) ^ (2 + 1) = 262144 from rfl]
              omega)
        refine ⟨t1, fuel1, by omega, ?_, hmem⟩
        rw [show i + clo6At (slotOf r) + 2 = i + utf8Len r from by rw [hn, hlen]] at heq
        exact heq

/-- The concatenation of canonical encodings spells, at each accumulated
offset, the canonical encoding of the corresponding rune. -/
theorem encAtAll_encodeAll (rs : List Nat) :
    ∀ pre : List Nat, EncAtAll (pre ++ encodeAll rs) pre.length rs := by
  induction rs with
  | nil =>
    intro pre
    trivial
  | cons r rest ih =>
    intro pre
    have hsplit : encodeAll (r :: rest) = encodeUtf8 r ++ encodeAll rest := rfl
    refine ⟨?_, ?_⟩
    · intro j hj
      rw [hsplit]
      have h1 := List.getD_append_right pre (encodeUtf8 r ++ encodeAll rest) 0
        (pre.length + j) (by omega)
      rw [show pre.length + j - pre.length = j from by omega] at h1
      rw [h1]
      exact List.getD_append _ _ 0 j (by rw [encodeUtf8_length]; exact hj)
    · have h := ih (pre ++ encodeUtf8 r)
      rw [List.append_assoc, List.length_append, encodeUtf8_length] at h
      rw [hsplit]
      exact h

/-- Effect of inserting a list of in-range runes, one `addutf` call per
rune, reading their concatenated canonical encodings: every call
succeeds, the final cursor sits at the end of the consumed bytes, and
each root slot's visit list gains exactly the runes routed to it. -/
theorem insertString_spec (rs : List Nat) :
    ∀ (set : UTFSet) (s : List Nat) (i fuel : Nat),
      (∀ r ∈ rs, r < 0x110000) → EncAtAll s i rs → 2 * rs.length ≤ fuel →
      ∃ set1 fuel1,
        insertString s set i fuel rs.length
          = (set1, some (i + (encodeAll rs).length), fuel1) ∧
        ∀ (c : Fin 64) (v : Nat),
          v ∈ foreach1 (set1 c) (clo6At c.val) (c.val % (64 >>> clo6At c.val))
            ↔ (v ∈ foreach1 (set c) (clo6At c.val) (c.val % (64 >>> clo6At c.val))
               ∨ (v ∈ rs ∧ slotOf v = c.val)) := by
  induction rs with
  | nil =>
    intro set s i fuel hv he hf
    refine ⟨set, fuel, ?_, ?_⟩
    · rfl
    · intro c v
      simp
  | cons r rest ih =>
    intro set s i fuel hv he hf
    obtain ⟨heA, heR⟩ := he
    have hlen1 : (r :: rest).length = rest.length + 1 := rfl
    rw [hlen1] at hf
    have hr : r < 0x110000 := hv r (List.mem_cons_self r rest)
    obtain ⟨t1, fuel1, hf1, heq, hmem⟩ := addutf_encode r hr set s i fuel heA (by omega)
    obtain ⟨set2, fuel2, heq2, hmem2⟩ :=
      ih (Function.update set ⟨slotOf r, slotOf_lt r hr⟩ t1) s (i + utf8Len r) fuel1
        (fun x hx => hv x (List.mem_cons_of_mem r hx)) heR (by omega)
    have hL : i + utf8Len r + (encodeAll rest).length = i + (encodeAll (r :: rest)).length := by
      rw [show encodeAll (r :: rest) = encodeUtf8 r ++ encodeAll rest from rfl,
        List.length_append, encodeUtf8_length]
      omega
    refine ⟨set2, fuel2, ?_, ?_⟩
    · rw [show (r :: rest).length = rest.length + 1 from rfl]
      simp only [insertString, heq]
      rw [heq2, hL]
    · intro c v
      rw [hmem2 c v]
      by_cases hcc : (⟨slotOf r, slotOf_lt r hr⟩ : Fin 64) = c
      · subst hcc
        rw [Function.update_same]
        dsimp only
        rw [hmem v, List.mem_cons]
        constructor
        · rintro ((ho | rfl) | ⟨hm, hsl⟩)
          · exact Or.inl ho
          · exact Or.inr ⟨Or.inl rfl, rfl⟩
          · exact Or.inr ⟨Or.inr hm, hsl⟩
        · rintro (ho | ⟨rfl | hm, hsl⟩)
          · exact Or.inl (Or.inl ho)
          · exact Or.inl (Or.inr rfl)
          · exact Or.inr ⟨hm, hsl⟩
      · rw [Function.update_noteq (Ne.symm hcc), List.mem_cons]
        constructor
        · rintro (ho | ⟨hm, hsl⟩)
          · exact Or.inl ho
          · exact Or.inr ⟨Or.inr hm, hsl⟩
        · rintro (ho | ⟨rfl | hm, hsl⟩)
          · exact Or.inl ho
          · exact absurd
              (show (⟨slotOf v, slotOf_lt v hr⟩ : Fin 64) = c from Fin.ext hsl) hcc
          · exact Or.inr ⟨hm, hsl⟩

/-- Master round-trip: inserting the concatenated canonical encodings of
in-range runes `rs` into the empty set succeeds, consumes the whole
input, and `foreach` then visits exactly the distinct elements of `rs`,
in strictly increasing order. -/
theorem insert_foreach_master (rs : List Nat) (hv : ∀ r ∈ rs, r < 0x110000)
    (fuel : Nat) (hf : 2 * rs.length ≤ fuel) :
    ∃ set1 fuel1,
      insertString (encodeAll rs) emptySet 0 fuel rs.length
        = (set1, some (encodeAll rs).length, fuel1)
      ∧ (∀ x, x ∈ foreach set1 ↔ x ∈ rs)
      ∧ (foreach set1).Sorted (· < ·) := by
  have he : EncAtAll (encodeAll rs) 0 rs := by
    have h := encAtAll_encodeAll rs []
    simpa using h
  obtain ⟨set1, fuel1, heq, hmem⟩ :=
    insertString_spec rs emptySet (encodeAll rs) 0 fuel hv he hf
  rw [show (0 : Nat) + (encodeAll rs).length = (encodeAll rs).length from by omega] at heq
  have hmem1 : ∀ (c : Fin 64) (v : Nat),
      v ∈ foreach1 (set1 c) (clo6At c.val) (c.val % (64 >>> clo6At c.val))
        ↔ (v ∈ rs ∧ slotOf v = c.val) := by
    intro c v
    have h := hmem c v
    rw [show emptySet c = Child.null from rfl, foreach1_null] at h
    simpa using h
  have hforeach : ∀ x, x ∈ foreach set1 ↔ x ∈ rs := by
    intro x
    rw [foreach, List.mem_flatMap]
    constructor
    · rintro ⟨c, -, hc⟩
      exact ((hmem1 c x).1 hc).1
    · intro hx
      have hxr : x < 0x110000 := hv x hx
      refine ⟨⟨slotOf x, slotOf_lt x hxr⟩, List.mem_finRange _, ?_⟩
      rw [hmem1]
      exact ⟨hx, rfl⟩
  have hsorted : (foreach set1).Sorted (· < ·) := by
    rw [foreach, List.flatMap_def]
    show List.Pairwise _ _
    rw [List.pairwise_flatten]
    constructor
    · intro l hl
      rw [List.mem_map] at hl
      obtain ⟨c, -, rfl⟩ := hl
      exact foreach1_sorted _ _ _
    · rw [List.pairwise_map]
      refine (List.pairwise_lt_finRange 64).imp ?_
      intro a b hab x hx y hy
      have hxm := (hmem1 a x).1 hx
      have hym := (hmem1 b y).1 hy
      by_contra hxy
      push_neg at hxy
      have hmono := slotOf_mono x y hxy
      rw [hym.2, hxm.2] at hmono
      have hab2 : a.val < b.val := hab
      omega
  exact ⟨set1, fuel1, heq, hforeach, hsorted⟩

/-- C1: for every valid (non-overlong) UTF-8 byte sequence — the
concatenated canonical encodings of a list of Unicode scalar values —
calling Insert once per encoded rune starting from the empty set (with
enough allocation budget) succeeds consuming the whole input, and ForEach
then visits exactly the set of distinct runes occurring in the sequence,
each exactly once regardless of how often it occurs. -/
theorem claim_roundtrip_insert_foreach (rs : List Nat) (hv : ∀ r ∈ rs, ValidRune r)
    (fuel : Nat) (hf : 2 * rs.length ≤ fuel) :
    ∃ set1 fuel1,
      insertString (encodeAll rs) emptySet 0 fuel rs.length
        = (set1, some (encodeAll rs).length, fuel1)
      ∧ (∀ x, x ∈ foreach set1 ↔ x ∈ rs)
      ∧ (foreach set1).Nodup := by
  obtain ⟨set1, fuel1, heq, hm, hs⟩ :=
    insert_foreach_master rs (fun r hr => (hv r hr).1) fuel hf
  exact ⟨set1, fuel1, heq, hm, hs.nodup⟩

/-- Witness for C1 at a concrete input containing a duplicate rune. -/
theorem claim_roundtrip_insert_foreach_witness :
    (∀ r ∈ [0x61, 0x1D508, 0x61], ValidRune r)
    ∧ 2 * [0x61, 0x1D508, 0x61].length ≤ 6
    ∧ ∃ set1 fuel1,
        insertString (encodeAll [0x61, 0x1D508, 0x61]) emptySet 0 6
            [0x61, 0x1D508, 0x61].length
          = (set1, some (encodeAll [0x61, 0x1D508, 0x61]).length, fuel1)
        ∧ (∀ x, x ∈ foreach set1 ↔ x ∈ [0x61, 0x1D508, 0x61])
        ∧ (foreach set1).Nodup :=
  ⟨by decide, by decide,
    claim_roundtrip_insert_foreach [0x61, 0x1D508, 0x61] (by decide) 6 (by decide)⟩

/-- C2: for a set built from the empty set by successful Insert calls on
non-overlong (canonical) encodings, the successive rune arguments that
ForEach passes to the visit callback are strictly increasing. -/
theorem claim_foreach_ascending (rs : List Nat) (hv : ∀ r ∈ rs, ValidRune r)
    (fuel : Nat) (hf : 2 * rs.length ≤ fuel) :
    ∃ set1 fuel1,
      insertString (encodeAll rs) emptySet 0 fuel rs.length
        = (set1, some (encodeAll rs).length, fuel1)
      ∧ (foreach set1).Sorted (· < ·) := by
  obtain ⟨set1, fuel1, heq, -, hs⟩ :=
    insert_foreach_master rs (fun r hr => (hv r hr).1) fuel hf
  exact ⟨set1, fuel1, heq, hs⟩

/-- Witness for C2 at a concrete input inserted in descending order. -/
theorem claim_foreach_ascending_witness :
    (∀ r ∈ [0x1F600, 0x80, 0x7F], ValidRune r)
    ∧ 2 * [0x1F600, 0x80, 0x7F].length ≤ 6
    ∧ ∃ set1 fuel1,
        insertString (encodeAll [0x1F600, 0x80, 0x7F]) emptySet 0 6
            [0x1F600, 0x80, 0x7F].length
          = (set1, some (encodeAll [0x1F600, 0x80, 0x7F]).length, fuel1)
        ∧ (foreach set1).Sorted (· < ·) :=
  ⟨by decide, by decide,
    claim_foreach_ascending [0x1F600, 0x80, 0x7F] (by decide) 6 (by decide)⟩

/-- C3 counterexample: a malformed call (bare continuation byte 0x80) and
an out-of-memory call (3-byte leading byte 0xE2 with no allocation
budget) are distinguished by the spec's instrumented interface, yet the
code returns the identical public result for both — failure is one bare
NULL — so a caller cannot tell which failure occurred, refuting the claim
that the two failure outcomes are distinct at the public interface. -/
theorem claim_error_kinds_counterexample :
    (addutfE emptySet [0x80] 0 0).2.1 = Except.error InsertErr.malformed
    ∧ (addutfE emptySet [0xE2, 0x82, 0xAC] 0 0).2.1 = Except.error InsertErr.oom
    ∧ (addutf emptySet [0x80] 0 0).2.1 = (addutf emptySet [0xE2, 0x82, 0xAC] 0 0).2.1 :=
  ⟨rfl, rfl, rfl⟩

/-- C3 amended: Insert has exactly two failure causes — malformed input
and allocation failure, as witnessed by the instrumented `addutfE` whose
error type has exactly those two constructors — but the code reports both
through the same bare failure result (`NULL`), so they are not
distinguishable at the public interface. -/
theorem claim_error_kinds_amended :
    ∀ (set : UTFSet) (s : List Nat) (i fuel : Nat),
      addutf set s i fuel
        = ((addutfE set s i fuel).1, (addutfE set s i fuel).2.1.toOption,
           (addutfE set s i fuel).2.2) :=
  addutf_erase

/-- C4: Insert on a cursor whose first byte is in 0x80..0xBF (a bare
continuation byte in leading position) reports failure and performs no
visible mutation: the set is returned untouched and a subsequent ForEach
produces the same visit sequence as before the call. -/
theorem claim_continuation_byte_rejected (set : UTFSet) (s : List Nat) (i fuel : Nat)
    (h1 : 0x80 ≤ byteAt s i) (h2 : byteAt s i < 0xC0) :
    addutf set s i fuel = (set, none, fuel)
    ∧ foreach (addutf set s i fuel).1 = foreach set := by
  refine ⟨addutf_continuation set s i fuel h1 h2, ?_⟩
  rw [addutf_continuation set s i fuel h1 h2]

/-- Witness for C4 on the empty set and input 0x80. -/
theorem claim_continuation_byte_rejected_witness :
    0x80 ≤ byteAt [0x80] 0 ∧ byteAt [0x80] 0 < 0xC0
    ∧ (addutf emptySet [0x80] 0 5 = (emptySet, none, 5)
       ∧ foreach (addutf emptySet [0x80] 0 5).1 = foreach emptySet) :=
  ⟨by decide, by decide,
    claim_continuation_byte_rejected emptySet [0x80] 0 5 (by decide) (by decide)⟩

/-- C5: for an ASCII first byte (top bit clear) Insert consumes exactly
one input byte — the returned cursor is the input cursor advanced by 1 —
and makes that byte's rune a member of the set; in particular, inserting
the single byte 0x41 into the empty set makes ForEach report exactly the
one rune 0x41. -/
theorem claim_ascii_insert (set : UTFSet) (s : List Nat) (i fuel : Nat)
    (h : byteAt s i < 0x80) :
    (addutf set s i fuel).2.1 = some (i + 1)
    ∧ byteAt s i ∈ foreach (addutf set s i fuel).1
    ∧ foreach (addutf emptySet [0x41] 0 0).1 = [0x41] := by
  obtain ⟨t1, fuel1, -, heq, hmem⟩ := addutf_encode_ascii (byteAt s i) h set s i fuel rfl
  refine ⟨by rw [heq], ?_, by decide⟩
  rw [heq]
  dsimp only
  rw [foreach, List.mem_flatMap]
  refine ⟨⟨slotOf (byteAt s i), slotOf_lt _ (by omega)⟩, List.mem_finRange _, ?_⟩
  rw [Function.update_same]
  exact (hmem (byteAt s i)).2 (Or.inr rfl)

/-- Witness for C5 on the byte 0x41. -/
theorem claim_ascii_insert_witness :
    byteAt [0x41] 0 < 0x80
    ∧ ((addutf emptySet [0x41] 0 3).2.1 = some (0 + 1)
       ∧ byteAt [0x41] 0 ∈ foreach (addutf emptySet [0x41] 0 3).1
       ∧ foreach (addutf emptySet [0x41] 0 0).1 = [0x41]) :=
  ⟨by decide, claim_ascii_insert emptySet [0x41] 0 3 (by decide)⟩

/-- C6: for a first byte with the top two bits set, Insert determines `n`
from the precomputed table indexed by the low 6 bits — the table being
exactly the count of leading one bits in a 6-bit value — consumes exactly
`n + 1` further bytes after the first byte, and returns the cursor at the
first byte after the whole consumed sequence. -/
theorem claim_leading_byte_length (set : UTFSet) (s : List Nat) (i fuel : Nat)
    (h : 0xC0 ≤ byteAt s i) (hf : clo6At (byteAt s i % 64) ≤ fuel) :
    (addutf set s i fuel).2.1 = some (i + 1 + (clo6At (byteAt s i % 64) + 1))
    ∧ (∀ c < 64, clo6At c = leadOnes 6 c) := by
  refine ⟨?_, by decide⟩
  rw [addutf_leading_cursor set s i fuel h hf]
  rw [show i + clo6At (byteAt s i % 64) + 2
      = i + 1 + (clo6At (byteAt s i % 64) + 1) from by omega]

/-- Witness for C6 on a 4-byte leading byte. -/
theorem claim_leading_byte_length_witness :
    0xC0 ≤ byteAt [0xF0, 0x9D, 0x94, 0x88] 0
    ∧ clo6At (byteAt [0xF0, 0x9D, 0x94, 0x88] 0 % 64) ≤ 2
    ∧ ((addutf emptySet [0xF0, 0x9D, 0x94, 0x88] 0 2).2.1
          = some (0 + 1 + (clo6At (byteAt [0xF0, 0x9D, 0x94, 0x88] 0 % 64) + 1))
       ∧ (∀ c < 64, clo6At c = leadOnes 6 c)) :=
  ⟨by decide, by decide,
    claim_leading_byte_length emptySet [0xF0, 0x9D, 0x94, 0x88] 0 2 (by decide) (by decide)⟩

/-- C7: after a successful Insert, repeating the identical Insert
succeeds, returns the very same set — so ForEach output is unchanged and
no duplicate visit can arise — and consumes no allocation budget. -/
theorem claim_insert_idempotent (set : UTFSet) (s : List Nat) (i fuel : Nat)
    (set1 : UTFSet) (j fuel1 : Nat) (h : addutf set s i fuel = (set1, some j, fuel1)) :
    ∀ g, addutf set1 s i g = (set1, some j, g)
      ∧ foreach (addutf set1 s i g).1 = foreach set1 := by
  intro g
  refine ⟨addutf_idem set s i fuel set1 j fuel1 h g, ?_⟩
  rw [addutf_idem set s i fuel set1 j fuel1 h g]

/-- Witness for C7: inserting the 2-byte encoding of U+00E9 twice. -/
theorem claim_insert_idempotent_witness :
    addutf emptySet [0xC3, 0xA9] 0 1
        = ((addutf emptySet [0xC3, 0xA9] 0 1).1, some 2, 1)
    ∧ (addutf (addutf emptySet [0xC3, 0xA9] 0 1).1 [0xC3, 0xA9] 0 0
          = ((addutf emptySet [0xC3, 0xA9] 0 1).1, some 2, 0)
       ∧ foreach (addutf (addutf emptySet [0xC3, 0xA9] 0 1).1 [0xC3, 0xA9] 0 0).1
          = foreach (addutf emptySet [0xC3, 0xA9] 0 1).1) :=
  ⟨rfl, claim_insert_idempotent emptySet [0xC3, 0xA9] 0 1 _ 2 1 rfl 0⟩

/-- C8: ForEach with any visit callback over any accumulator is exactly
the fold of the set's pure visit list over the callback: the traversal
only reads the set (which plays no part beyond its contents), calls the
callback once per stored rune, and is total — it performs no allocation
and no fallible operation. -/
theorem claim_foreach_pure {σ : Type} (set : UTFSet) (fcn : Nat → σ → σ) (acc : σ) :
    foreachF set fcn acc = (foreach set).foldl (fun a v => fcn v a) acc :=
  foreachF_eq_foldl set fcn acc

/-- C9: inserting the UTF-8 encoding of "aé€𝔈" (bytes 0x61; 0xC3 0xA9;
0xE2 0x82 0xAC; 0xF0 0x9D 0x94 0x88) into the empty set succeeds, and
ForEach then calls visit exactly four times, with arguments 0x61, 0xE9,
0x20AC, 0x1D508 in that order. -/
theorem claim_multibyte_scenario :
    (insertString [0x61, 0xC3, 0xA9, 0xE2, 0x82, 0xAC, 0xF0, 0x9D, 0x94, 0x88]
        emptySet 0 8 4).2.1 = some 10
    ∧ foreach (insertString [0x61, 0xC3, 0xA9, 0xE2, 0x82, 0xAC, 0xF0, 0x9D, 0x94, 0x88]
        emptySet 0 8 4).1 = [0x61, 0xE9, 0x20AC, 0x1D508] :=
  ⟨by decide, by decide⟩

/-- C10: when Insert fails partway — in particular on allocation failure
during the descent — every node it attached before failing is
zero-initialized and no bitmask bit has been set, so the set's observable
membership, the visit sequence ForEach produces, is exactly what it was
before the failed call. -/
theorem claim_failed_insert_invisible (set : UTFSet) (s : List Nat) (i fuel : Nat)
    (h : (addutf set s i fuel).2.1 = none) :
    foreach (addutf set s i fuel).1 = foreach set :=
  addutf_fail_foreach set s i fuel h

/-- Witness for C10: a 4-byte insert whose second allocation fails after
the first one has already been attached. -/
theorem claim_failed_insert_invisible_witness :
    (addutf emptySet [0xF0, 0x9D, 0x94, 0x88] 0 1).2.1 = none
    ∧ foreach (addutf emptySet [0xF0, 0x9D, 0x94, 0x88] 0 1).1 = foreach emptySet :=
  ⟨by decide,
    claim_failed_insert_invisible emptySet [0xF0, 0x9D, 0x94, 0x88] 0 1 (by decide)⟩
